import Mathlib

/-!
Verification of the orchestration pipeline of the radem-examples repository
(Acquire, Extract, Ingest & Normalize, Persist & Reload), as exercised by the
notebooks `radem_data_transformations.ipynb`, the IREM data-transformation
notebook and `spacecraft_trajectories.ipynb`.

The Extract stage (`extract_and_process_files`) and the notebook cell
structure are embedded directly from the source.  The external `radem`
library boundary (path listing, CDF reading, normalization, HDF5/CSV I/O)
and the behavior of `wget --timestamping` live outside the repository's
source tree; those parts are modelled from the specification's contract for
the boundary, and are marked as such on each definition.
-/

namespace RademExamples

/-- Byte sequences (file contents). -/
abbrev Bytes := List Nat

/-- Whether the character list `cs` ends with the list `suf`. -/
def chEndsWith (cs suf : List Char) : Bool :=
  decide (suf.length ≤ cs.length) && (cs.drop (cs.length - suf.length) == suf)

/-- Lexicographic comparison of character lists by code point, the order
Python uses when comparing the individual component strings of two
paths. -/
def chLe : List Char → List Char → Bool
  | [], _ => true
  | _ :: _, [] => false
  | a :: as, b :: bs =>
    if a.toNat < b.toNat then true
    else if b.toNat < a.toNat then false
    else chLe as bs

/-- Index of the last '.' character in `cs` (Python `str.rfind('.')`),
`none` when there is no dot. -/
def lastDotIdx (cs : List Char) : Option Nat :=
  (cs.reverse.findIdx? (fun c => c == '.')).map (fun j => cs.length - 1 - j)

/-- Python `pathlib.PurePath.stem` applied to a file name: the name without
its last suffix, where a suffix only counts when the last dot is neither the
first nor past the last character. -/
def pyStem (s : String) : String :=
  match lastDotIdx s.data with
  | some i => if 0 < i ∧ i + 1 < s.data.length then String.mk (s.data.take i) else s
  | none => none.getD s

/-- A top-level entry of the raw-archive directory: either a subdirectory
holding archive files, or a plain file. -/
inductive FsEntry
  | dir (files : List (String × Bytes))
  | file (data : Bytes)

/-- The raw-archive directory: its `os.listdir` entries in listing order. -/
abbrev RawFs := List (String × FsEntry)

/-- The extracted-output directory, as a map from file name to content. -/
abbrev ExtractedDir := String → Option Bytes

/-- One raw archive selected for extraction: the subdirectory it lies in,
its file name, and its compressed content. -/
structure RawFile where
  dirname : String
  filename : String
  content : Bytes
deriving DecidableEq

/-- The path `dirname/filename` used for sorting and log messages. -/
def fullPath (f : RawFile) : String := f.dirname ++ "/" ++ f.filename

/-- The characters of the selection pattern in
`filename.endswith(".cdf.gz")`. -/
def cdfGzSuffix : List Char := '.' :: 'c' :: 'd' :: 'f' :: '.' :: 'g' :: 'z' :: []

/-- The traversal
`(raw/d/f for d in os.listdir(raw) for f in os.listdir(raw/d) if f.endswith(".cdf.gz"))`:
it selects the `.cdf.gz` files lying exactly one subdirectory below the raw
directory, and raises `NotADirectoryError` (modelled as `Except.error` with
the offending entry name) as soon as `os.listdir` is applied to a top-level
entry that is not a directory. -/
def listRawFiles : RawFs → Except String (List RawFile)
  | [] => .ok []
  | (d, .file _) :: _ => .error d
  | (d, .dir fs) :: rest =>
    match listRawFiles rest with
    | .error e => .error e
    | .ok r =>
      .ok (((fs.filter (fun p => chEndsWith p.1.data cdfGzSuffix)).map
        (fun p => ⟨d, p.1, p.2⟩)) ++ r)

/-- Comparison of two `(dirname, filename)` component pairs: lexicographic
on the pair, comparing each component by `chLe`. -/
def partsLe (d₁ f₁ d₂ f₂ : List Char) : Bool :=
  if d₁ = d₂ then chLe f₁ f₂ else chLe d₁ d₂

/-- Order on selected raw files, modelling the order Python's `sorted`
produces on `Path` values: paths are compared by their component tuples,
and since every selected path shares the raw root's components, this is
the lexicographic order on the remaining `(dirname, filename)` pair. -/
def pathLe (a b : RawFile) : Prop :=
  partsLe a.dirname.data a.filename.data b.dirname.data b.filename.data = true

instance : DecidableRel pathLe :=
  fun a b => inferInstanceAs
    (Decidable (partsLe a.dirname.data a.filename.data b.dirname.data b.filename.data = true))

instance : IsTrans RawFile pathLe := by
  constructor
  have trans : ∀ a b c : List Char, chLe a b = true → chLe b c = true → chLe a c = true := by
    intro a
    induction a with
    | nil => intro b c _ _; rfl
    | cons x xs ih =>
      intro b c hab hbc
      cases b with
      | nil => simp [chLe] at hab
      | cons y ys =>
        cases c with
        | nil => simp [chLe] at hbc
        | cons z zs =>
          simp only [chLe] at hab hbc ⊢
          split_ifs at hab hbc ⊢ with h1 h2 h3 h4 h5 h6 <;>
            first
              | rfl
              | omega
              | exact ih ys zs hab hbc
  have anti : ∀ a b : List Char, chLe a b = true → chLe b a = true → a = b := by
    intro a
    induction a with
    | nil =>
      intro b _ hba
      cases b with
      | nil => rfl
      | cons y ys => simp [chLe] at hba
    | cons x xs ih =>
      intro b hab hba
      cases b with
      | nil => simp [chLe] at hab
      | cons y ys =>
        simp only [chLe] at hab hba
        by_cases h1 : x.toNat < y.toNat
        · rw [if_neg (Nat.lt_asymm h1), if_pos h1] at hba
          simp at hba
        · by_cases h2 : y.toNat < x.toNat
          · rw [if_neg h1, if_pos h2] at hab
            simp at hab
          · rw [if_neg h1, if_neg h2] at hab
            rw [if_neg h2, if_neg h1] at hba
            have htn : x.toNat = y.toNat :=
              Nat.le_antisymm (Nat.le_of_not_lt h2) (Nat.le_of_not_lt h1)
            have hxy : x = y := Char.ext (UInt32.ext htn)
            rw [hxy, ih ys hab hba]
  intro a b c hab hbc
  simp only [pathLe, partsLe] at hab hbc ⊢
  by_cases h1 : a.dirname.data = b.dirname.data
  · by_cases h2 : b.dirname.data = c.dirname.data
    · rw [if_pos h1] at hab
      rw [if_pos h2] at hbc
      rw [if_pos (h1.trans h2)]
      exact trans _ _ _ hab hbc
    · rw [if_pos h1] at hab
      rw [if_neg h2] at hbc
      rw [if_neg (fun h => h2 (h1.symm.trans h)), h1]
      exact hbc
  · by_cases h2 : b.dirname.data = c.dirname.data
    · rw [if_neg h1] at hab
      rw [if_pos h2] at hbc
      rw [if_neg (fun h => h1 (h.trans h2.symm)), ← h2]
      exact hab
    · rw [if_neg h1] at hab
      rw [if_neg h2] at hbc
      by_cases h3 : a.dirname.data = c.dirname.data
      · exfalso
        apply h1
        apply anti _ _ hab
        rw [← h3] at hbc
        exact hbc
      · rw [if_neg h3]
        exact trans _ _ _ hab hbc

instance : IsTotal RawFile pathLe := by
  constructor
  have total : ∀ a b : List Char, chLe a b = true ∨ chLe b a = true := by
    intro a
    induction a with
    | nil => intro b; exact Or.inl rfl
    | cons x xs ih =>
      intro b
      cases b with
      | nil => exact Or.inr rfl
      | cons y ys =>
        simp only [chLe]
        rcases Nat.lt_trichotomy x.toNat y.toNat with h | h | h
        · left; simp [h]
        · rcases ih ys with h' | h' <;> [left; right] <;> simp [h, h']
        · right; simp [h, Nat.lt_asymm h]
  intro a b
  simp only [pathLe, partsLe]
  by_cases h : a.dirname.data = b.dirname.data
  · rw [if_pos h, if_pos h.symm]
    exact total _ _
  · rw [if_neg h, if_neg (fun h' => h h'.symm)]
    exact total _ _

/-- The sorted file list built by `sorted(...)` in
`extract_and_process_files`. -/
def sortedRawFiles (raw : RawFs) : Except String (List RawFile) :=
  (listRawFiles raw).map (List.insertionSort pathLe)

/-- The `print` messages issued while processing one file:
`Extracting {filename} to {output_filename}` always, then
`Overriding {filename} - already exists.` when the output already exists. -/
inductive LogEntry
  | extracting (src out : String)
  | overriding (src : String)
deriving DecidableEq

/-- State threaded through the extraction loop: the extracted directory and
the log messages printed so far. -/
structure ExtractState where
  fs : ExtractedDir
  log : List LogEntry

/-- The body of the `for filename in data_raw_filenames` loop: compute the
output name as the stem of the archive name, print the extracting notice,
print an overriding notice when the output already exists, then write the
decompressed content unconditionally. -/
def processFile (gunzip : Bytes → Bytes) (st : ExtractState) (f : RawFile) : ExtractState :=
  { fs := fun n => if n = pyStem f.filename then some (gunzip f.content) else st.fs n
    log := st.log ++ [LogEntry.extracting (fullPath f) (pyStem f.filename)] ++
      (match st.fs (pyStem f.filename) with
       | some _ => [LogEntry.overriding (fullPath f)]
       | none => []) }

/-- `extract_and_process_files(data_raw_dir, data_extracted_dir)`: build the
sorted `.cdf.gz` list and process each file in order.  `gunzip` is the
decompression function of the external `gzip` module, a fixed function of
the input bytes. -/
def extract_and_process_files (gunzip : Bytes → Bytes) (raw : RawFs)
    (ext : ExtractedDir) : Except String ExtractState :=
  (sortedRawFiles raw).map (fun files => files.foldl (processFile gunzip) ⟨ext, []⟩)

/-- The content of the last file in `files` whose stem is `n`, if any:
the value the extraction loop leaves at output name `n`. -/
def lastWrite : List RawFile → String → Option Bytes
  | [], _ => none
  | f :: t, n =>
    match lastWrite t n with
    | some b => some b
    | none => if n = pyStem f.filename then some f.content else none

/-- The source path announced by an extracting log entry. -/
def logSrc : LogEntry → Option String
  | .extracting src _ => some src
  | .overriding _ => none

/-- The sequence of archive paths in the order they were processed, read off
the printed log. -/
def processedSources (log : List LogEntry) : List String :=
  log.filterMap logSrc

/-- Modelled from the spec: a remote archive entry of the upstream data
repository mirrored by the Acquire stage (`wget --timestamping -A gz`),
which is not part of the repository's own source. -/
structure RemoteFile where
  path : String
  mtime : Nat
  content : Bytes

/-- Modelled from the spec: a local mirrored file with its timestamp. -/
structure LocalFile where
  mtime : Nat
  content : Bytes
deriving DecidableEq

/-- The local mirror tree, as a map from path to file. -/
abbrev LocalFs := String → Option LocalFile

/-- Modelled from the spec: the `-A gz` suffix filter of the mirror
operation. -/
def acceptGz (p : String) : Bool := chEndsWith p.data ('g' :: 'z' :: [])

/-- Modelled from the spec: a local copy is up to date when it exists and
its timestamp is at least as new as the remote copy. -/
def upToDate (loc : LocalFs) (rf : RemoteFile) : Bool :=
  match loc rf.path with
  | some lf => decide (rf.mtime ≤ lf.mtime)
  | none => false

/-- Modelled from the spec: `wget --timestamping` handling of one remote
file — skip it when the suffix filter rejects it or the local copy is up to
date, otherwise transfer it, setting the local timestamp to the remote one.
The second component accumulates the paths actually transferred. -/
def acquireFile (st : LocalFs × List String) (rf : RemoteFile) : LocalFs × List String :=
  if acceptGz rf.path then
    if upToDate st.1 rf then st
    else (fun n => if n = rf.path then some ⟨rf.mtime, rf.content⟩ else st.1 n,
          st.2 ++ [rf.path])
  else st

/-- Modelled from the spec: the Acquire stage, mirroring every remote file
in turn.  Returns the updated local tree and the list of transfers. -/
def acquire (remote : List RemoteFile) (loc : LocalFs) : LocalFs × List String :=
  remote.foldl acquireFile (loc, [])

/-- Modelled from the spec: a decoded-record file as seen through the
`radem.handlers` boundary — its instrument kind, its embedded calendar date
(as a linear day number), its path, and its time-indexed rows. -/
structure DecodedFile where
  kind : String
  day : Nat
  path : String
  rows : List (Nat × List ℚ)
deriving DecidableEq

/-- Modelled from the spec: whether a decoded file matches the requested
kind and falls inside the inclusive optional date range. -/
def matchesFilter (kind : String) (fromDate toDate : Option Nat) (f : DecodedFile) : Bool :=
  f.kind == kind &&
    (match fromDate with | some a => decide (a ≤ f.day) | none => true) &&
    (match toDate with | some b => decide (f.day ≤ b) | none => true)

/-- Modelled from the spec: `get_radem_science_cdf_paths` /
`get_radem_housekeeping_cdf_paths` — every decoded-file path of the given
kind whose embedded date lies in the range. -/
def get_radem_cdf_paths (root : List DecodedFile) (kind : String)
    (fromDate toDate : Option Nat) : List String :=
  (root.filter (matchesFilter kind fromDate toDate)).map (fun f => f.path)

/-- Modelled from the spec: `read_radem_science_cdfs` /
`read_radem_housekeeping_cdfs` applied to a directory, with an optional
date range — one handle per matching file found. -/
def read_radem_cdfs_dir (root : List DecodedFile) (kind : String)
    (fromDate toDate : Option Nat) : List DecodedFile :=
  root.filter (matchesFilter kind fromDate toDate)

/-- Modelled from the spec: `read_radem_cdfs` applied to an explicit path
sequence — one handle per input path, located in the decoded directory. -/
def read_radem_cdfs (root : List DecodedFile) (paths : List String) : List DecodedFile :=
  paths.filterMap (fun p => root.find? (fun f => f.path == p))

/-- A Parsed Table: named columns and time-indexed numeric rows. -/
structure ParsedTable where
  cols : List String
  rows : List (Nat × List ℚ)
deriving DecidableEq

/-- Row order by time index. -/
def rowLe (a b : Nat × List ℚ) : Prop := a.1 ≤ b.1

instance : DecidableRel rowLe :=
  fun a b => inferInstanceAs (Decidable (a.1 ≤ b.1))

/-- Drop every later row whose time equals the previous surviving row's
time, in a time-sorted row list. -/
def dedupAfter (prev : Nat) : List (Nat × List ℚ) → List (Nat × List ℚ)
  | [] => []
  | s :: t => if s.1 = prev then dedupAfter prev t else s :: dedupAfter s.1 t

/-- Remove duplicate time-index rows from a time-sorted row list, keeping
each time's first occurrence. -/
def dedupTimes : List (Nat × List ℚ) → List (Nat × List ℚ)
  | [] => []
  | r :: t => r :: dedupAfter r.1 t

/-- Modelled from the spec: `convert_radem_science_cdfs_to_df` — concatenate
all handles' rows, sort by time ascending, drop duplicate time-index rows,
and attach the fixed column schema of the instrument kind. -/
def convert_radem_cdfs_to_df (cols : List String) (cdfs : List DecodedFile) : ParsedTable :=
  ⟨cols, dedupTimes (List.insertionSort rowLe (cdfs.flatMap (fun c => c.rows)))⟩

/-- Encoding of one rational value in the binary store: numerator then
denominator. -/
def encRat (q : ℚ) : List Int := [q.num, (q.den : Int)]

/-- Encoding of one table row in the binary store: time, value count, then
the encoded values. -/
def encRow (r : Nat × List ℚ) : List Int :=
  (r.1 : Int) :: (r.2.length : Int) :: r.2.flatMap encRat

/-- Encoding of one column name in the binary store: length then code
points. -/
def encStr (s : String) : List Int :=
  (s.data.length : Int) :: s.data.map (fun c => (c.toNat : Int))

/-- Modelled from the spec: `write_hdf` — serialize a Parsed Table into the
binary store exactly: column count, column names, row count, rows. -/
def write_hdf (t : ParsedTable) : List Int :=
  (t.cols.length : Int) ::
    (t.cols.flatMap encStr ++ ((t.rows.length : Int) :: t.rows.flatMap encRow))

/-- Decode `n` characters from the stream. -/
def decChars : Nat → List Int → Option (List Char × List Int)
  | 0, s => some ([], s)
  | _ + 1, [] => none
  | n + 1, c :: s => (decChars n s).map (fun r => (Char.ofNat c.toNat :: r.1, r.2))

/-- Decode one length-tagged column name from the stream. -/
def decStr : List Int → Option (String × List Int)
  | [] => none
  | n :: s => (decChars n.toNat s).map (fun r => (String.mk r.1, r.2))

/-- Decode one rational value from the stream. -/
def decRat : List Int → Option (ℚ × List Int)
  | n :: d :: s => some ((n : ℚ) / (d : ℚ), s)
  | _ => none

/-- Decode `n` consecutive items with the given item decoder. -/
def decList {α : Type} (dec : List Int → Option (α × List Int)) :
    Nat → List Int → Option (List α × List Int)
  | 0, s => some ([], s)
  | n + 1, s =>
    match dec s with
    | none => none
    | some (a, s') => (decList dec n s').map (fun r => (a :: r.1, r.2))

/-- Decode one table row from the stream. -/
def decRow (s : List Int) : Option ((Nat × List ℚ) × List Int) :=
  match s with
  | t :: k :: s' => (decList decRat k.toNat s').map (fun r => ((t.toNat, r.1), r.2))
  | _ => none

/-- Modelled from the spec: `read_hdf` — parse the binary store back into a
Parsed Table, failing on any malformed stream. -/
def read_hdf (s : List Int) : Option ParsedTable :=
  match s with
  | [] => none
  | nc :: s1 =>
    match decList decStr nc.toNat s1 with
    | none => none
    | some (cols, s2) =>
      match s2 with
      | [] => none
      | nr :: s3 =>
        match decList decRow nr.toNat s3 with
        | some (rows, []) => some ⟨cols, rows⟩
        | _ => none

/-- The delimited text store: a header of column names and one row of
decimal-serialized numbers per time index. -/
structure CsvData where
  cols : List String
  rows : List (Nat × List Int)
deriving DecidableEq

/-- Modelled from the spec: decimal text serialization of one value with
`p` decimal digits — the nearest `p`-digit decimal, as a scaled integer. -/
def encFixed (p : Nat) (q : ℚ) : Int := round (q * (10 : ℚ) ^ p)

/-- Modelled from the spec: parsing one `p`-digit decimal back into a
number. -/
def decFixed (p : Nat) (n : Int) : ℚ := (n : ℚ) / (10 : ℚ) ^ p

/-- Modelled from the spec: `write_csv` — serialize every value of the
table to decimal text with `p` digits. -/
def write_csv (p : Nat) (t : ParsedTable) : CsvData :=
  ⟨t.cols, t.rows.map (fun r => (r.1, r.2.map (encFixed p)))⟩

/-- Modelled from the spec: `read_csv` — parse the decimal text store back
into a Parsed Table. -/
def read_csv (p : Nat) (c : CsvData) : ParsedTable :=
  ⟨c.cols, c.rows.map (fun r => (r.1, r.2.map (decFixed p)))⟩

/-- The value a number comes back as after the text-store round trip. -/
def csvRound (p : Nat) (q : ℚ) : ℚ := decFixed p (encFixed p q)

/-- The two persisted-store formats used by the notebooks. -/
inductive StoreKind
  | hdf
  | csv
deriving DecidableEq

/-- A notebook statement relevant to the Persist & Reload stage: writing a
table to a store, reading it back into a variable, or comparing a read-back
variable with the original for equality. -/
inductive NbStmt
  | writeStore (k : StoreKind) (src dest : String)
  | readStore (k : StoreKind) (dest src : String)
  | eqCheck (a b : String)
deriving DecidableEq

/-- The Persist & Reload statements of `radem_data_transformations.ipynb`,
in cell order. -/
def rademTransformStmts : List NbStmt :=
  [.writeStore .hdf "sc_df" "example.h5",
   .readStore .hdf "sc_df_hdf" "example.h5",
   .eqCheck "sc_df_hdf" "sc_df",
   .writeStore .csv "sc_df" "example.csv",
   .readStore .csv "sc_df_csv" "example.csv"]

/-- The Persist & Reload statements of the IREM data-transformations
notebook, in cell order. -/
def iremTransformStmts : List NbStmt :=
  [.writeStore .hdf "df" "example.hdf5",
   .readStore .hdf "df_hdf" "example.hdf5",
   .eqCheck "df_hdf" "df",
   .writeStore .csv "df" "example.csv",
   .readStore .csv "df_csv" "example.csv"]

/-- The Persist & Reload statements of `spacecraft_trajectories.ipynb`, in
cell order. -/
def trajectoriesStmts : List NbStmt :=
  [.writeStore .hdf "df_juice" "juice_trajectory.h5",
   .writeStore .hdf "df_integral" "integral_trajectory.h5",
   .writeStore .csv "df_juice" "juice_trajectory.csv",
   .writeStore .csv "df_integral" "integral_trajectory.csv",
   .readStore .hdf "df_juice" "juice_trajectory.h5",
   .readStore .hdf "df_integral" "integral_trajectory.h5",
   .readStore .csv "df_juice" "juice_trajectory.csv",
   .readStore .csv "df_integral" "integral_trajectory.csv"]

/-- For each read-back statement, in order: its store kind and whether an
equality comparison against the read-back variable immediately follows. -/
def readChecks : List NbStmt → List (StoreKind × Bool)
  | [] => []
  | .readStore k d _ :: rest =>
    (k, match rest with
        | .eqCheck a _ :: _ => a == d
        | _ => false) :: readChecks rest
  | _ :: rest => readChecks rest

/-- Whether every read-back in the statement list is immediately followed by
an equality comparison. -/
def allReadsChecked (stmts : List NbStmt) : Bool :=
  (readChecks stmts).all (fun c => c.2)

/-- A one-file decoded set whose single science file lies outside the
date range `[0, 0]`, separating the unfiltered full-directory ingest
pattern from the date-filtered ones. -/
def rootC1 : List DecodedFile := [⟨"science", 5, "p1", [(0, [])]⟩]

/-- A concrete raw-archive directory with one dated subdirectory holding one
archive file. -/
def rawW : RawFs := [("2023", .dir [("a.cdf.gz", [1, 2])])]

/-- An empty extracted-output directory. -/
def extW : ExtractedDir := fun _ => none

/-- The selected, sorted file list of `rawW`. -/
def filesW : List RawFile := [⟨"2023", "a.cdf.gz", [1, 2]⟩]

/-- A concrete extraction state whose output file `a.cdf` already exists. -/
def stW : ExtractState :=
  ⟨fun n => if n = "a.cdf" then some [0] else none, []⟩

/-- A concrete raw archive whose output already exists in `stW`. -/
def fW : RawFile := ⟨"2023", "a.cdf.gz", [5]⟩

/-- A raw-archive directory whose first top-level entry is a plain file
rather than a subdirectory. -/
def rawBad : RawFs := [("x", .file [9]), ("2023", .dir [("a.cdf.gz", [1])])]

/-- A concrete remote tree with one gzip archive. -/
def remoteW : List RemoteFile := [⟨"a.gz", 3, [1]⟩]

/-- A concrete local mirror already holding `a.gz` with a newer
timestamp. -/
def locW : LocalFs := fun p => if p = "a.gz" then some ⟨5, [1]⟩ else none

theorem chEndsWith_iff {cs suf : List Char} :
    chEndsWith cs suf = true ↔ ∃ t, cs = t ++ suf := by
  unfold chEndsWith
  rw [Bool.and_eq_true, decide_eq_true_iff, beq_iff_eq]
  constructor
  · rintro ⟨hle, hdrop⟩
    refine ⟨cs.take (cs.length - suf.length), ?_⟩
    conv_lhs => rw [← List.take_append_drop (cs.length - suf.length) cs]
    rw [hdrop]
  · rintro ⟨t, rfl⟩
    refine ⟨by simp, ?_⟩
    have h : (t ++ suf).length - suf.length = t.length := by simp
    rw [h, List.drop_left]

theorem pyStem_cdf_gz {s : String} (h : chEndsWith s.data cdfGzSuffix = true) :
    pyStem s ++ ".gz" = s := by
  obtain ⟨t, ht⟩ := chEndsWith_iff.mp h
  have hlen : s.data.length = t.length + 7 := by
    rw [ht]; simp [cdfGzSuffix]
  have hrev : s.data.reverse = 'z' :: 'g' :: '.' :: 'f' :: 'd' :: 'c' :: '.' :: t.reverse := by
    rw [ht]; simp [cdfGzSuffix]
  have hidx : lastDotIdx s.data = some (t.length + 4) := by
    unfold lastDotIdx
    rw [hrev]
    simp +decide [List.findIdx?_cons, hlen]
  have hcond : 0 < t.length + 4 ∧ t.length + 4 + 1 < s.data.length := by omega
  have hstem : pyStem s = String.mk (t ++ ('.' :: 'c' :: 'd' :: 'f' :: [])) := by
    unfold pyStem
    rw [hidx]
    show (if 0 < t.length + 4 ∧ t.length + 4 + 1 < s.data.length then
      String.mk (s.data.take (t.length + 4)) else s) = _
    rw [if_pos hcond]
    congr 1
    rw [ht, List.take_append_eq_append_take, List.take_of_length_le (by omega),
      show t.length + 4 - t.length = 4 by omega]
    rfl
  apply String.ext
  rw [String.data_append, hstem, ht]
  show (t ++ ('.' :: 'c' :: 'd' :: 'f' :: [])) ++ ".gz".data = t ++ cdfGzSuffix
  rw [List.append_assoc]
  rfl

theorem mem_listRawFiles {raw : RawFs} {l : List RawFile} (h : listRawFiles raw = .ok l) :
    ∀ f ∈ l, chEndsWith f.filename.data cdfGzSuffix = true ∧
      ∃ fs, (f.dirname, FsEntry.dir fs) ∈ raw ∧ (f.filename, f.content) ∈ fs := by
  induction raw generalizing l with
  | nil =>
    unfold listRawFiles at h
    injection h with h
    subst h
    intro f hf
    cases hf
  | cons e rest ih =>
    obtain ⟨d, fe⟩ := e
    cases fe with
    | file b => exact absurd h (by simp [listRawFiles])
    | dir fs =>
      unfold listRawFiles at h
      cases hrest : listRawFiles rest with
      | error e => rw [hrest] at h; cases h
      | ok r =>
        rw [hrest] at h
        injection h with h
        subst h
        intro f hf
        rcases List.mem_append.mp hf with hf | hf
        · rcases List.mem_map.mp hf with ⟨p, hp, rfl⟩
          refine ⟨?_, fs, by simp, ?_⟩
          · simpa using List.of_mem_filter hp
          · simpa using List.mem_of_mem_filter hp
        · obtain ⟨h1, fs', h2, h3⟩ := ih hrest f hf
          exact ⟨h1, fs', by simp [h2], h3⟩

theorem listRawFiles_error {raw : RawFs} (d : String) (b : Bytes)
    (h : (d, FsEntry.file b) ∈ raw) : ∃ e, listRawFiles raw = .error e := by
  induction raw with
  | nil => cases h
  | cons x rest ih =>
    obtain ⟨d', fe⟩ := x
    cases fe with
    | file b' => exact ⟨d', rfl⟩
    | dir fs =>
      rcases List.mem_cons.mp h with heq | hmem
      · cases heq
      · obtain ⟨e, he⟩ := ih hmem
        exact ⟨e, by unfold listRawFiles; rw [he]⟩

theorem foldl_process_fs (gz : Bytes → Bytes) (files : List RawFile)
    (st : ExtractState) (n : String) :
    (files.foldl (processFile gz) st).fs n =
      match lastWrite files n with
      | some b => some (gz b)
      | none => st.fs n := by
  induction files generalizing st with
  | nil => rfl
  | cons f t ih =>
    show (t.foldl (processFile gz) (processFile gz st f)).fs n = _
    rw [ih]
    have hcons : lastWrite (f :: t) n =
        match lastWrite t n with
        | some b => some b
        | none => if n = pyStem f.filename then some f.content else none := rfl
    rw [hcons]
    cases hw : lastWrite t n with
    | some b => rfl
    | none =>
      show (processFile gz st f).fs n = _
      by_cases hn : n = pyStem f.filename <;> simp [processFile, hn]

theorem foldl_process_log (gz : Bytes → Bytes) (files : List RawFile) (st : ExtractState) :
    processedSources (files.foldl (processFile gz) st).log =
      processedSources st.log ++ files.map fullPath := by
  induction files generalizing st with
  | nil => simp
  | cons f t ih =>
    show processedSources (t.foldl (processFile gz) (processFile gz st f)).log = _
    rw [ih]
    unfold processFile processedSources
    cases st.fs (pyStem f.filename) <;> simp [logSrc, List.filterMap_append]

/-- C4: every raw archive selected by Extract (name ending in `.cdf.gz`)
is written to an output file whose name is the archive's name with exactly
the `.gz` compression suffix removed, and re-running Extract on the same
unchanged raw input overwrites the outputs with byte-identical content: the
final extracted directory of the second run equals that of the first. -/
theorem extract_strips_gz_and_is_deterministic (gz : Bytes → Bytes) (raw : RawFs)
    (ext : ExtractedDir) (files : List RawFile)
    (h : sortedRawFiles raw = .ok files) :
    (∀ f ∈ files, pyStem f.filename ++ ".gz" = f.filename) ∧
    ∃ r1 r2, extract_and_process_files gz raw ext = .ok r1 ∧
      extract_and_process_files gz raw r1.fs = .ok r2 ∧ r2.fs = r1.fs := by
  have hbase : ∃ base, listRawFiles raw = .ok base ∧
      List.insertionSort pathLe base = files := by
    unfold sortedRawFiles at h
    cases hl : listRawFiles raw with
    | error e => rw [hl] at h; cases h
    | ok base =>
      rw [hl] at h
      injection h with h
      exact ⟨base, rfl, h⟩
  obtain ⟨base, hl, hsort⟩ := hbase
  constructor
  · intro f hf
    have hmem : f ∈ base :=
      (List.perm_insertionSort pathLe base).mem_iff.mp (hsort ▸ hf)
    exact pyStem_cdf_gz (mem_listRawFiles hl f hmem).1
  · refine ⟨files.foldl (processFile gz) ⟨ext, []⟩,
      files.foldl (processFile gz) ⟨(files.foldl (processFile gz) ⟨ext, []⟩).fs, []⟩,
      ?_, ?_, ?_⟩
    · unfold extract_and_process_files
      rw [h]
      rfl
    · unfold extract_and_process_files
      rw [h]
      rfl
    · funext n
      rw [foldl_process_fs, foldl_process_fs]
      cases lastWrite files n <;> rfl

/-- C4 witness: the theorem instantiated on a concrete raw directory with
one archive file. -/
theorem extract_strips_gz_and_is_deterministic_witness :
    sortedRawFiles rawW = .ok filesW ∧
    ((∀ f ∈ filesW, pyStem f.filename ++ ".gz" = f.filename) ∧
      ∃ r1 r2, extract_and_process_files (fun b => b) rawW extW = .ok r1 ∧
        extract_and_process_files (fun b => b) rawW r1.fs = .ok r2 ∧ r2.fs = r1.fs) :=
  ⟨by rfl, extract_strips_gz_and_is_deterministic (fun b => b) rawW extW filesW (by rfl)⟩

/-- C5: when a file's output already exists in the extracted directory, the
loop body neither fails nor skips it: it prints the extracting notice and an
overriding notice (not an error), and proceeds to overwrite the existing
output with the freshly decompressed content. -/
theorem extract_overwrites_existing (gz : Bytes → Bytes) (st : ExtractState)
    (f : RawFile) (old : Bytes) (h : st.fs (pyStem f.filename) = some old) :
    (processFile gz st f).fs (pyStem f.filename) = some (gz f.content) ∧
    (processFile gz st f).log = st.log ++
      [LogEntry.extracting (fullPath f) (pyStem f.filename),
       LogEntry.overriding (fullPath f)] := by
  refine ⟨by simp [processFile], ?_⟩
  show st.log ++ _ ++ _ = _
  rw [h]
  simp

/-- C5 witness: the theorem instantiated on a concrete state in which the
output `a.cdf` already exists. -/
theorem extract_overwrites_existing_witness :
    stW.fs (pyStem fW.filename) = some [0] ∧
    ((processFile (fun b => b) stW fW).fs (pyStem fW.filename) = some ((fun b => b) fW.content) ∧
      (processFile (fun b => b) stW fW).log = stW.log ++
        [LogEntry.extracting (fullPath fW) (pyStem fW.filename),
         LogEntry.overriding (fullPath fW)]) :=
  ⟨by rfl, extract_overwrites_existing (fun b => b) stW fW [0] (by rfl)⟩

/-- C9: a successful Extract run processes the selected archive files in
lexicographically sorted path order: the source paths announced by the log,
in processing order, list the selected files in a sequence that is a
permutation of the selection and pairwise sorted by the component-tuple
path order Python's `sorted` uses on `Path` values, so the order is
deterministic across runs over the same inputs. -/
theorem extract_processes_in_sorted_path_order (gz : Bytes → Bytes) (raw : RawFs)
    (ext : ExtractedDir) (r : ExtractState)
    (h : extract_and_process_files gz raw ext = .ok r) :
    ∃ base files, listRawFiles raw = .ok base ∧ files.Perm base ∧
      List.Pairwise pathLe files ∧
      processedSources r.log = files.map fullPath := by
  unfold extract_and_process_files sortedRawFiles at h
  cases hl : listRawFiles raw with
  | error e => rw [hl] at h; cases h
  | ok base =>
    rw [hl] at h
    injection h with h
    subst h
    refine ⟨base, List.insertionSort pathLe base, rfl,
      List.perm_insertionSort pathLe base, List.sorted_insertionSort pathLe base, ?_⟩
    show processedSources (List.foldl (processFile gz) ⟨ext, []⟩
      (List.insertionSort pathLe base)).log = _
    rw [foldl_process_log]
    simp [processedSources]

/-- C9 witness: the theorem instantiated on a concrete raw directory. -/
theorem extract_processes_in_sorted_path_order_witness :
    ∃ base files, listRawFiles rawW = .ok base ∧ files.Perm base ∧
      List.Pairwise pathLe files ∧
      processedSources (filesW.foldl (processFile (fun b => b)) ⟨extW, []⟩).log =
        files.map fullPath :=
  extract_processes_in_sorted_path_order (fun b => b) rawW extW
    (filesW.foldl (processFile (fun b => b)) ⟨extW, []⟩) (by rfl)

/-- C10: Extract considers only `.cdf.gz` files lying exactly one
subdirectory below the raw directory, and whenever some top-level entry of
the raw directory is not a directory, the traversal fails while building the
file list — the whole run returns an error and no file is extracted — so
totality requires every top-level entry to be a directory. -/
theorem extract_fails_on_nondir_entry (gz : Bytes → Bytes) (raw : RawFs)
    (ext : ExtractedDir) :
    ((∃ d b, (d, FsEntry.file b) ∈ raw) →
      ∃ e, extract_and_process_files gz raw ext = .error e) ∧
    (∀ base, listRawFiles raw = .ok base → ∀ f ∈ base,
      chEndsWith f.filename.data cdfGzSuffix = true ∧
      ∃ fs, (f.dirname, FsEntry.dir fs) ∈ raw ∧ (f.filename, f.content) ∈ fs) := by
  constructor
  · rintro ⟨d, b, hmem⟩
    obtain ⟨e, he⟩ := listRawFiles_error d b hmem
    refine ⟨e, ?_⟩
    unfold extract_and_process_files sortedRawFiles
    rw [he]
    rfl
  · intro base hb
    exact mem_listRawFiles hb

/-- C10 witness: the theorem instantiated on a concrete raw directory whose
first top-level entry is a plain file. -/
theorem extract_fails_on_nondir_entry_witness :
    ∃ e, extract_and_process_files (fun b => b) rawBad extW = .error e :=
  (extract_fails_on_nondir_entry (fun b => b) rawBad extW).1
    ⟨"x", [9], List.mem_cons_self _ _⟩

theorem acquireFile_mono (st : LocalFs × List String) (rf : RemoteFile) (p : String)
    (lf : LocalFile) (h : st.1 p = some lf) :
    ∃ lf', (acquireFile st rf).1 p = some lf' ∧ lf.mtime ≤ lf'.mtime := by
  unfold acquireFile
  by_cases hacc : acceptGz rf.path = true
  · rw [if_pos hacc]
    by_cases hud : upToDate st.1 rf = true
    · rw [if_pos hud]
      exact ⟨lf, h, le_refl _⟩
    · rw [if_neg hud]
      by_cases hp : p = rf.path
      · refine ⟨⟨rf.mtime, rf.content⟩, by simp [hp], ?_⟩
        subst hp
        unfold upToDate at hud
        rw [h] at hud
        simp at hud
        show lf.mtime ≤ rf.mtime
        omega
      · exact ⟨lf, by simp [hp, h], le_refl _⟩
  · rw [if_neg hacc]
    exact ⟨lf, h, le_refl _⟩

theorem foldl_acquire_mono (remote : List RemoteFile) (st : LocalFs × List String)
    (p : String) (lf : LocalFile) (h : st.1 p = some lf) :
    ∃ lf', (remote.foldl acquireFile st).1 p = some lf' ∧ lf.mtime ≤ lf'.mtime := by
  induction remote generalizing st lf with
  | nil => exact ⟨lf, h, le_refl _⟩
  | cons rf rest ih =>
    obtain ⟨lf1, h1, hle1⟩ := acquireFile_mono st rf p lf h
    obtain ⟨lf2, h2, hle2⟩ := ih (acquireFile st rf) lf1 h1
    exact ⟨lf2, h2, le_trans hle1 hle2⟩

theorem upToDate_mono (loc loc' : LocalFs) (rf : RemoteFile)
    (hmono : ∀ p lf, loc p = some lf → ∃ lf', loc' p = some lf' ∧ lf.mtime ≤ lf'.mtime)
    (h : upToDate loc rf = true) : upToDate loc' rf = true := by
  unfold upToDate at h ⊢
  cases hl : loc rf.path with
  | none => rw [hl] at h; cases h
  | some lf =>
    rw [hl] at h
    simp at h
    obtain ⟨lf', hl', hle⟩ := hmono _ _ hl
    rw [hl']
    simp
    omega

theorem acquireFile_post (st : LocalFs × List String) (rf : RemoteFile)
    (hacc : acceptGz rf.path = true) :
    upToDate (acquireFile st rf).1 rf = true := by
  unfold acquireFile
  rw [if_pos hacc]
  by_cases hud : upToDate st.1 rf = true
  · rw [if_pos hud]
    exact hud
  · rw [if_neg hud]
    unfold upToDate
    simp

theorem acquire_post (remote : List RemoteFile) (st : LocalFs × List String) :
    ∀ rf ∈ remote, acceptGz rf.path = true →
      upToDate (remote.foldl acquireFile st).1 rf = true := by
  induction remote generalizing st with
  | nil => intro rf h; cases h
  | cons r rest ih =>
    intro rf hmem hacc
    rcases List.mem_cons.mp hmem with heq | hmem
    · subst heq
      exact upToDate_mono _ _ _
        (fun p lf h => foldl_acquire_mono rest (acquireFile st rf) p lf h)
        (acquireFile_post st rf hacc)
    · exact ih (acquireFile st r) rf hmem hacc

theorem acquire_noop (remote : List RemoteFile) (loc : LocalFs) (tr : List String)
    (h : ∀ rf ∈ remote, acceptGz rf.path = true → upToDate loc rf = true) :
    remote.foldl acquireFile (loc, tr) = (loc, tr) := by
  induction remote with
  | nil => rfl
  | cons rf rest ih =>
    have hstep : acquireFile (loc, tr) rf = (loc, tr) := by
      unfold acquireFile
      by_cases hacc : acceptGz rf.path = true
      · rw [if_pos hacc, if_pos (h rf (List.mem_cons_self _ _) hacc)]
      · rw [if_neg hacc]
    show rest.foldl acquireFile (acquireFile (loc, tr) rf) = (loc, tr)
    rw [hstep]
    exact ih (fun g hg hacc => h g (List.mem_cons_of_mem _ hg) hacc)

/-- C6: when every remote archive file is already present locally with a
timestamp at least as new as the remote copy, re-running Acquire transfers
nothing and leaves the mirror unchanged; moreover, for any starting mirror,
running Acquire a second time after a first run transfers nothing — Acquire
is idempotent, so a partial mirror is resumed by re-invoking it. -/
theorem acquire_skips_up_to_date_and_idempotent (remote : List RemoteFile) (loc : LocalFs) :
    ((∀ rf ∈ remote, upToDate loc rf = true) → acquire remote loc = (loc, [])) ∧
    acquire remote (acquire remote loc).1 = ((acquire remote loc).1, []) := by
  constructor
  · intro h
    exact acquire_noop remote loc [] (fun rf hrf _ => h rf hrf)
  · exact acquire_noop remote (acquire remote loc).1 []
      (fun rf hrf hacc => acquire_post remote (loc, []) rf hrf hacc)

/-- C6 witness: the theorem instantiated on a concrete remote tree whose
one file is already mirrored with a newer local timestamp. -/
theorem acquire_skips_up_to_date_and_idempotent_witness :
    acquire remoteW locW = (locW, []) :=
  (acquire_skips_up_to_date_and_idempotent remoteW locW).1
    (by
      intro rf hrf
      rcases List.mem_singleton.mp hrf with rfl
      rfl)

theorem find_path_of_nodup {root : List DecodedFile}
    (hnd : (root.map (fun f => f.path)).Nodup) {f : DecodedFile} (hf : f ∈ root) :
    root.find? (fun g => g.path == f.path) = some f := by
  induction root with
  | nil => cases hf
  | cons g rest ih =>
    rw [List.map_cons, List.nodup_cons] at hnd
    rcases List.mem_cons.mp hf with heq | hf
    · subst heq
      rw [List.find?_cons_of_pos _ (by simp)]
    · have hne : (g.path == f.path) = false := by
        rw [beq_eq_false_iff_ne]
        intro he
        exact hnd.1 (he ▸ List.mem_map_of_mem (fun x => x.path) hf)
      rw [List.find?_cons_of_neg _ (by simp [hne])]
      exact ih hnd.2 hf

theorem filterMap_id_of_mem {α : Type} {g : α → Option α} {l : List α}
    (h : ∀ a ∈ l, g a = some a) : l.filterMap g = l := by
  induction l with
  | nil => rfl
  | cons a t ih =>
    rw [List.filterMap_cons, h a (List.mem_cons_self _ _),
      ih (fun x hx => h x (List.mem_cons_of_mem _ hx))]

theorem read_paths_eq_read_dir (root : List DecodedFile)
    (hnd : (root.map (fun f => f.path)).Nodup) (kind : String)
    (fromDate toDate : Option Nat) :
    read_radem_cdfs root (get_radem_cdf_paths root kind fromDate toDate) =
      read_radem_cdfs_dir root kind fromDate toDate := by
  unfold read_radem_cdfs get_radem_cdf_paths read_radem_cdfs_dir
  rw [List.filterMap_map]
  exact filterMap_id_of_mem (fun f hf =>
    find_path_of_nodup hnd (List.mem_of_mem_filter hf))

/-- C1 counterexample: on a one-file decoded set whose science file is
dated outside the range `[0, 0]`, the unfiltered full-directory ingest
pattern followed by normalization yields a different Parsed Table than the
date-filtered patterns for that range, so the three call patterns are not
row-identical for every date range. -/
theorem ingest_patterns_differ_on_rootC1 :
    convert_radem_cdfs_to_df [] (read_radem_cdfs_dir rootC1 "science" none none) ≠
      convert_radem_cdfs_to_df []
        (read_radem_cdfs rootC1 (get_radem_cdf_paths rootC1 "science" (some 0) (some 0))) := by
  decide

/-- C1 (amended): for every decoded-file set with distinct paths, the two
date-filtered ingest call patterns (listing filtered paths and then reading
them, and reading the directory with the date range passed directly),
each followed by normalization, produce row-identical Parsed Tables; the
full-directory pattern agrees with them whenever every file of the
requested kind falls inside the date range. -/
theorem ingest_pattern_equivalence (root : List DecodedFile) (cols : List String)
    (kind : String) (fromDate toDate : Option Nat)
    (hnd : (root.map (fun f => f.path)).Nodup) :
    (convert_radem_cdfs_to_df cols
        (read_radem_cdfs root (get_radem_cdf_paths root kind fromDate toDate)) =
      convert_radem_cdfs_to_df cols (read_radem_cdfs_dir root kind fromDate toDate)) ∧
    ((∀ f ∈ root, f.kind = kind → matchesFilter kind fromDate toDate f = true) →
      convert_radem_cdfs_to_df cols (read_radem_cdfs_dir root kind none none) =
        convert_radem_cdfs_to_df cols (read_radem_cdfs_dir root kind fromDate toDate)) := by
  constructor
  · rw [read_paths_eq_read_dir root hnd]
  · intro hcov
    unfold read_radem_cdfs_dir
    congr 1
    apply List.filter_congr
    intro f hf
    by_cases hk : f.kind = kind
    · have hc := hcov f hf hk
      simp [matchesFilter, hk] at hc ⊢
      exact hc
    · have hb : (f.kind == kind) = false := by simp [hk]
      simp [matchesFilter, hb]

/-- C1 witness: the amended theorem instantiated on the one-file decoded
set with a range that covers it. -/
theorem ingest_pattern_equivalence_witness :
    (rootC1.map (fun f => f.path)).Nodup ∧
    (convert_radem_cdfs_to_df []
        (read_radem_cdfs rootC1 (get_radem_cdf_paths rootC1 "science" (some 0) (some 10))) =
      convert_radem_cdfs_to_df [] (read_radem_cdfs_dir rootC1 "science" (some 0) (some 10))) ∧
    (convert_radem_cdfs_to_df [] (read_radem_cdfs_dir rootC1 "science" none none) =
      convert_radem_cdfs_to_df [] (read_radem_cdfs_dir rootC1 "science" (some 0) (some 10))) :=
  ⟨by decide,
   (ingest_pattern_equivalence rootC1 [] "science" (some 0) (some 10) (by decide)).1,
   (ingest_pattern_equivalence rootC1 [] "science" (some 0) (some 10) (by decide)).2
     (by decide)⟩

theorem decChars_enc (cs : List Char) (rest : List Int) :
    decChars cs.length (cs.map (fun c => (c.toNat : Int)) ++ rest) = some (cs, rest) := by
  induction cs with
  | nil => rfl
  | cons c t ih =>
    show decChars (t.length + 1) ((c.toNat : Int) :: (t.map _ ++ rest)) = _
    unfold decChars
    rw [ih]
    simp [Char.ofNat_toNat]

theorem decStr_enc (s : String) (rest : List Int) :
    decStr (encStr s ++ rest) = some (s, rest) := by
  show decStr ((s.data.length : Int) :: (s.data.map _ ++ rest)) = _
  unfold decStr
  dsimp only
  rw [Int.toNat_ofNat, decChars_enc]
  rfl

theorem decRat_enc (q : ℚ) (rest : List Int) :
    decRat (encRat q ++ rest) = some (q, rest) := by
  show decRat (q.num :: (q.den : Int) :: rest) = _
  unfold decRat
  dsimp only
  have hq : ((q.num : ℚ)) / (((q.den : Int) : ℚ)) = q := by
    push_cast
    exact Rat.num_div_den q
  rw [hq]

theorem decList_enc {α : Type} (dec : List Int → Option (α × List Int))
    (enc : α → List Int) (h : ∀ a rest, dec (enc a ++ rest) = some (a, rest))
    (l : List α) (rest : List Int) :
    decList dec l.length (l.flatMap enc ++ rest) = some (l, rest) := by
  induction l with
  | nil => rfl
  | cons a t ih =>
    show decList dec (t.length + 1) ((enc a ++ t.flatMap enc) ++ rest) = _
    unfold decList
    rw [List.append_assoc, h]
    dsimp only
    rw [ih]
    rfl

theorem decRow_enc (r : Nat × List ℚ) (rest : List Int) :
    decRow (encRow r ++ rest) = some (r, rest) := by
  show decRow ((r.1 : Int) :: (r.2.length : Int) :: (r.2.flatMap encRat ++ rest)) = _
  unfold decRow
  dsimp only
  simp only [Int.toNat_ofNat]
  rw [decList_enc decRat encRat decRat_enc]
  rfl

/-- C2: writing a Parsed Table to the binary store with `write_hdf` and
reading it back with `read_hdf` returns the original table exactly,
element for element — the time index, the numeric column values, and the
column order are all preserved. -/
theorem hdf_roundtrip_exact (t : ParsedTable) : read_hdf (write_hdf t) = some t := by
  show read_hdf ((t.cols.length : Int) ::
    (t.cols.flatMap encStr ++ ((t.rows.length : Int) :: t.rows.flatMap encRow))) = _
  unfold read_hdf
  dsimp only
  rw [Int.toNat_ofNat, decList_enc decStr encStr decStr_enc]
  dsimp only
  have hrows : decList decRow ((t.rows.length : Int)).toNat (t.rows.flatMap encRow) =
      some (t.rows, []) := by
    rw [Int.toNat_ofNat, ← List.append_nil (t.rows.flatMap encRow)]
    exact decList_enc decRow encRow decRow_enc t.rows []
  rw [hrows]

/-- C3: the text-store round trip reproduces the column names and the time
index exactly and every numeric value only up to the decimal-serialization
rounding `1 / (2 * 10 ^ p)` of the `p`-digit text form, and exact equality
is never guaranteed: for every precision there is a table that does not
round-trip exactly. -/
theorem csv_roundtrip_tolerance :
    (∀ p t, read_csv p (write_csv p t) =
      ⟨t.cols, t.rows.map (fun r => (r.1, r.2.map (csvRound p)))⟩) ∧
    (∀ p q, |csvRound p q - q| ≤ 1 / (2 * 10 ^ p)) ∧
    (∀ p, ∃ t, read_csv p (write_csv p t) ≠ t) := by
  refine ⟨?_, ?_, ?_⟩
  · intro p t
    unfold read_csv write_csv
    simp [List.map_map, Function.comp_def, csvRound]
  · intro p q
    unfold csvRound decFixed encFixed
    have hE : (0 : ℚ) < 10 ^ p := by positivity
    have hrw : ((round (q * (10 : ℚ) ^ p) : ℤ) : ℚ) / (10 : ℚ) ^ p - q =
        (((round (q * (10 : ℚ) ^ p) : ℤ) : ℚ) - q * (10 : ℚ) ^ p) / (10 : ℚ) ^ p := by
      rw [sub_div, mul_div_cancel_right₀ _ (ne_of_gt hE)]
    rw [hrw, abs_div, abs_of_pos hE,
      show (1 : ℚ) / (2 * 10 ^ p) = (1 / 2) / 10 ^ p by ring]
    gcongr
    rw [abs_sub_comm]
    exact abs_sub_round (q * (10 : ℚ) ^ p)
  · intro p
    refine ⟨⟨[], [(0, [(1 : ℚ) / 3])]⟩, ?_⟩
    intro hEq
    have hval : csvRound p ((1 : ℚ) / 3) = (1 : ℚ) / 3 := by
      have h := congrArg (fun tb : ParsedTable => tb.rows) hEq
      simpa [read_csv, write_csv, csvRound] using h
    unfold csvRound decFixed encFixed at hval
    rw [show (1 : ℚ) / 3 * (10 : ℚ) ^ p = (10 : ℚ) ^ p / 3 by ring] at hval
    have hE : ((10 : ℚ) ^ p) ≠ 0 := by positivity
    have h2 : ((round ((10 : ℚ) ^ p / 3) : ℤ) : ℚ) * 3 = (10 : ℚ) ^ p := by
      field_simp at hval
      linarith
    have h3 : (round ((10 : ℚ) ^ p / 3) : ℤ) * 3 = (10 : ℤ) ^ p := by
      exact_mod_cast h2
    have hdvd : (3 : ℤ) ∣ (10 : ℤ) ^ p := ⟨round ((10 : ℚ) ^ p / 3), by linarith⟩
    have hdvdN : (3 : ℕ) ∣ 10 ^ p := by
      have : ((3 : ℕ) : ℤ) ∣ ((10 ^ p : ℕ) : ℤ) := by push_cast; exact hdvd
      exact_mod_cast this
    have h10 : (3 : ℕ) ∣ 10 := Nat.Prime.dvd_of_dvd_pow (by norm_num) hdvdN
    norm_num at h10

/-- C7 counterexample: not every persist-and-reload pair in the notebooks is
followed by an equality comparison — in `radem_data_transformations.ipynb`
and in `spacecraft_trajectories.ipynb` some read-backs (the CSV one, and all
of the trajectory ones) have no comparison at all. -/
theorem readback_not_all_checked :
    allReadsChecked rademTransformStmts = false ∧
    allReadsChecked trajectoriesStmts = false := by
  decide

/-- C7 (amended): only the HDF5 read-back in each of the two
data-transformation notebooks is immediately followed by an explicit
equality comparison against the original table; the CSV read-backs and all
four read-backs of the trajectories notebook have no comparison, and the
repository makes no attempt at automatic correction anywhere. -/
theorem readback_check_inventory :
    readChecks rademTransformStmts = [(.hdf, true), (.csv, false)] ∧
    readChecks iremTransformStmts = [(.hdf, true), (.csv, false)] ∧
    readChecks trajectoriesStmts =
      [(.hdf, false), (.hdf, false), (.csv, false), (.csv, false)] := by
  decide

end RademExamples
